import Mathlib

/-!
Verification of the order-report aggregation logic of the admin panel
(src/admin-panel/components/Reports.tsx) and of the k6 load-test script.
Numbers of type number in the source are modelled as rationals, lists as
Lean lists, JavaScript objects keyed by strings or enum values as
association lists or functions, and optional fields as Option values.
-/

/-- Sales channel of an order: the five fixed values of the source union type. -/
inductive Channel where
  | hepsiburada
  | trendyol
  | ticimax
  | site
  | other
  deriving DecidableEq, Repr

/-- Order status: the six fixed values of the source union type. -/
inductive Status where
  | pending
  | processing
  | shipped
  | delivered
  | cancelled
  | returned
  deriving DecidableEq, Repr

/-- One order record as fetched from the reporting endpoint (interface OrderRow). -/
structure OrderRow where
  id : Nat
  date : String
  channel : Channel
  status : Status
  amount : Rat
  customer : String
  cargoProvider : Option String
  cargoSlipPrintedAt : Option String
  deriving DecidableEq, Repr

/-- JavaScript truthiness of an optional string: null and undefined are falsy,
and so is the empty string. -/
def isTruthyStr : Option String → Bool
  | none => false
  | some s => !s.isEmpty

/-- A concrete order used to instantiate theorems; its cargo slip timestamp is
present but empty, which JavaScript treats as falsy. -/
def sampleOrder : OrderRow :=
  ⟨1, "2025-01-01", Channel.site, Status.pending, 100, "Ali", none, some ""⟩

/-- The fixed channel iteration order of the source (const channelOrder). -/
def channelOrder : List Channel :=
  [Channel.hepsiburada, Channel.trendyol, Channel.ticimax, Channel.site, Channel.other]

/-- Result record of the totals reducer. -/
structure Totals where
  totalAmount : Rat
  orderCount : Nat
  avgBasket : Rat
  returnedRate : Rat
  onTimeRate : Rat
  deriving DecidableEq, Repr

/-- The totals reducer of the source: one linear pass summing amount, counting
orders, and deriving average basket, returned rate and cargo-slip rate, each
guarded by the truthiness of orderCount. -/
def totals (filtered : List OrderRow) : Totals :=
  let totalAmount := filtered.foldl (fun s o => s + o.amount) 0
  let orderCount := filtered.length
  let avgBasket := if orderCount = 0 then 0 else totalAmount / (orderCount : Rat)
  let returns := (filtered.filter (fun o => o.status = Status.returned)).length
  let returnedRate := if orderCount = 0 then 0 else ((returns : Rat) / (orderCount : Rat)) * 100
  let onTimeCargo := (filtered.filter (fun o => isTruthyStr o.cargoSlipPrintedAt)).length
  let onTimeRate := if orderCount = 0 then 0 else ((onTimeCargo : Rat) / (orderCount : Rat)) * 100
  ⟨totalAmount, orderCount, avgBasket, returnedRate, onTimeRate⟩

/-- One bucket of the by-channel map of the source. -/
structure ChannelBucket where
  channel : Channel
  amount : Rat
  count : Nat
  deriving DecidableEq, Repr

/-- One forEach step of the by-channel reducer: the record entry for the
channel of the order receives its amount and one more count. -/
def stepChannel (m : Channel → ChannelBucket) (o : OrderRow) : Channel → ChannelBucket :=
  fun c =>
    if c = o.channel then
      { m c with amount := (m c).amount + o.amount, count := (m c).count + 1 }
    else m c

/-- The by-channel reducer of the source: accumulate into the five-entry
record, then read the entries back in the fixed channel order. -/
def byChannel (filtered : List OrderRow) : List ChannelBucket :=
  channelOrder.map (fun c => (filtered.foldl stepChannel (fun c0 => ⟨c0, 0, 0⟩)) c)

theorem foldl_add_amount (os : List OrderRow) (a : Rat) :
    os.foldl (fun s o => s + o.amount) a = a + (os.map (·.amount)).sum := by
  induction os generalizing a with
  | nil => simp
  | cons o os ih => simp [ih, add_assoc]

theorem foldl_stepChannel_apply (os : List OrderRow) (m : Channel → ChannelBucket) (c : Channel) :
    (os.foldl stepChannel m) c =
      ⟨(m c).channel,
       (m c).amount + ((os.filter (fun o => o.channel = c)).map (·.amount)).sum,
       (m c).count + (os.filter (fun o => o.channel = c)).length⟩ := by
  induction os generalizing m with
  | nil => simp
  | cons o os ih =>
    rw [List.foldl_cons, ih]
    by_cases h : o.channel = c
    · simp [stepChannel, List.filter_cons, h, add_assoc]
      omega
    · have h2 : ¬ c = o.channel := fun hc => h hc.symm
      simp [stepChannel, List.filter_cons, h, h2]

theorem count_partition_channel (os : List OrderRow) :
    (channelOrder.map (fun c => (os.filter (fun o => o.channel = c)).length)).sum
      = os.length := by
  induction os with
  | nil => rfl
  | cons o os ih =>
    cases h : o.channel <;>
      simp_all [channelOrder, List.filter_cons, h] <;> omega

theorem amount_partition_channel (os : List OrderRow) :
    (channelOrder.map
        (fun c => ((os.filter (fun o => o.channel = c)).map (·.amount)).sum)).sum
      = (os.map (·.amount)).sum := by
  induction os with
  | nil => simp [channelOrder]
  | cons o os ih =>
    cases h : o.channel <;>
      simp_all [channelOrder, List.filter_cons, h] <;> linarith

/-- C9: the by-channel reducer returns exactly five buckets, one per channel in
the fixed order hepsiburada, trendyol, ticimax, site, other, and the bucket
counts sum to the total order count. -/
theorem byChannel_buckets (os : List OrderRow) :
    (byChannel os).length = 5
  ∧ (byChannel os).map (·.channel) = channelOrder
  ∧ ((byChannel os).map (·.count)).sum = os.length := by
  refine ⟨rfl, ?_, ?_⟩
  · simp [byChannel, foldl_stepChannel_apply, channelOrder]
  · have h := count_partition_channel os
    simp [byChannel, foldl_stepChannel_apply, channelOrder] at h ⊢
    omega

/-- C3: the amounts of the five by-channel buckets sum to the totalAmount of
the totals reducer over the same order list. -/
theorem byChannel_amount_total (os : List OrderRow) :
    ((byChannel os).map (·.amount)).sum = (totals os).totalAmount := by
  have h := amount_partition_channel os
  simp [byChannel, foldl_stepChannel_apply, totals, foldl_add_amount, channelOrder] at h ⊢
  linarith

/-- C4 (amended): the totals reducer returns the sum of amounts and the order
count; every rate is 0 on the empty list, and on a non-empty list the average
basket is totalAmount over the count, the returned rate is the share of
returned orders times 100, and the on-time rate is the share of orders with a
truthy (non-null, non-empty) cargoSlipPrintedAt times 100. -/
theorem totals_fields (os : List OrderRow) :
    (totals os).totalAmount = (os.map (·.amount)).sum
  ∧ (totals os).orderCount = os.length
  ∧ (os.length = 0 →
        (totals os).avgBasket = 0
      ∧ (totals os).returnedRate = 0
      ∧ (totals os).onTimeRate = 0)
  ∧ (0 < os.length →
        (totals os).avgBasket = (totals os).totalAmount / (os.length : Rat)
      ∧ (totals os).returnedRate
          = (((os.filter (fun o => o.status = Status.returned)).length : Rat)
              / (os.length : Rat)) * 100
      ∧ (totals os).onTimeRate
          = (((os.filter (fun o => isTruthyStr o.cargoSlipPrintedAt)).length : Rat)
              / (os.length : Rat)) * 100) := by
  refine ⟨?_, rfl, ?_, ?_⟩
  · simp [totals, foldl_add_amount]
  · intro h
    simp [totals, h]
  · intro h
    have h0 : ¬ os.length = 0 := Nat.pos_iff_ne_zero.mp h
    simp [totals, h0, foldl_add_amount]

/-- C4 counterexample: for an order whose cargoSlipPrintedAt is the empty
string, the code computes onTimeRate 0 while the claimed formula over orders
with a non-null cargoSlipPrintedAt yields 100. -/
theorem totals_onTime_nonnull_counterexample :
    ¬ ((totals [sampleOrder]).onTimeRate
        = ((([sampleOrder].filter (fun o => o.cargoSlipPrintedAt ≠ none)).length : Rat)
            / (([sampleOrder] : List OrderRow).length : Rat)) * 100) := by
  have hts : isTruthyStr (some "") = false := rfl
  intro hEq
  simp [totals, sampleOrder, hts, List.filter_cons] at hEq

/-- Witness for C4 at a concrete one-element order list. -/
theorem totals_fields_witness :
    (totals [sampleOrder]).avgBasket
      = (totals [sampleOrder]).totalAmount / (([sampleOrder] : List OrderRow).length : Rat) :=
  ((totals_fields [sampleOrder]).2.2.2 (by decide)).1

/-- One bucket of the by-status pie data of the source. -/
structure StatusBucket where
  status : Status
  value : Nat
  deriving DecidableEq, Repr

/-- The fixed key order of the status record literal in the source, which is
the iteration order of Object.entries over it. -/
def statusOrder : List Status :=
  [Status.pending, Status.processing, Status.shipped, Status.delivered,
   Status.cancelled, Status.returned]

/-- One forEach step of the by-status reducer: the record entry for the status
of the order is incremented. -/
def stepStatus (m : Status → Nat) (o : OrderRow) : Status → Nat :=
  fun st => if st = o.status then m st + 1 else m st

/-- The by-status reducer of the source: count per status, read the six
entries back in key order, and substitute the synthetic pending bucket of
value 1 when every count is zero. -/
def byStatus (filtered : List OrderRow) : List StatusBucket :=
  let counts := filtered.foldl stepStatus (fun _ => 0)
  let data := statusOrder.map (fun st => (⟨st, counts st⟩ : StatusBucket))
  if (data.map (·.value)).sum = 0 then [⟨Status.pending, 1⟩] else data

theorem foldl_stepStatus_apply (os : List OrderRow) (m : Status → Nat) (st : Status) :
    (os.foldl stepStatus m) st = m st + (os.filter (fun o => o.status = st)).length := by
  induction os generalizing m with
  | nil => simp
  | cons o os ih =>
    rw [List.foldl_cons, ih]
    by_cases h : o.status = st
    · subst h
      simp [stepStatus, List.filter_cons]
      omega
    · have h2 : ¬ st = o.status := fun hc => h hc.symm
      simp [stepStatus, List.filter_cons, h, h2]

theorem count_partition_status (os : List OrderRow) :
    (statusOrder.map (fun st => (os.filter (fun o => o.status = st)).length)).sum
      = os.length := by
  induction os with
  | nil => rfl
  | cons o os ih =>
    cases h : o.status <;>
      simp_all [statusOrder, List.filter_cons, h] <;> omega

/-- C2: the by-status reducer returns the six fixed buckets in key order with
counts summing to the order count when the list is non-empty, and returns the
single synthetic pending bucket of value 1 exactly when the list is empty. -/
theorem byStatus_spec (os : List OrderRow) :
    (os = [] → byStatus os = [⟨Status.pending, 1⟩])
  ∧ (os ≠ [] →
       (byStatus os).map (·.status) = statusOrder
     ∧ ((byStatus os).map (·.value)).sum = os.length
     ∧ byStatus os ≠ [⟨Status.pending, 1⟩]) := by
  have hsum :
      ((statusOrder.map
          (fun st => (⟨st, (os.foldl stepStatus (fun _ => 0)) st⟩ : StatusBucket))).map
            (·.value)).sum = os.length := by
    rw [List.map_map]
    have hc := count_partition_status os
    simp only [Function.comp_def, foldl_stepStatus_apply, Nat.zero_add]
    exact hc
  constructor
  · intro h
    subst h
    decide
  · intro h
    have hlen : os.length ≠ 0 := by
      simpa [List.length_eq_zero] using h
    have hby :
        byStatus os
          = statusOrder.map
              (fun st => (⟨st, (os.foldl stepStatus (fun _ => 0)) st⟩ : StatusBucket)) := by
      simp only [byStatus]
      rw [if_neg]
      omega
    refine ⟨?_, ?_, ?_⟩
    · rw [hby, List.map_map]
      simp [Function.comp_def]
    · rw [hby]
      exact hsum
    · rw [hby]
      intro hEq
      have hl := congrArg List.length hEq
      simp [statusOrder] at hl
  
/-- Witness for C2 at a concrete one-element order list. -/
theorem byStatus_spec_witness :
    byStatus [sampleOrder] ≠ [⟨Status.pending, 1⟩] :=
  ((byStatus_spec [sampleOrder]).2 (by decide)).2.2

/-- One bucket of the time-series record of the source. -/
structure TSBucket where
  date : String
  amount : Rat
  count : Nat
  deriving DecidableEq, Repr

/-- One forEach step of the time-series reducer. The date-keyed JavaScript
record is modelled as an association list in key insertion order: the first
bucket carrying the date of the order is updated, otherwise a fresh bucket
for that date is appended at the end. -/
def insertOrder : List TSBucket → OrderRow → List TSBucket
  | [], o => [⟨o.date, o.amount, 1⟩]
  | b :: bs, o =>
    if b.date = o.date then
      { b with amount := b.amount + o.amount, count := b.count + 1 } :: bs
    else b :: insertOrder bs o

/-- The comparator of the sort call of the source: localeCompare on the date
strings, which on ISO date strings is the lexicographic string order. -/
def dateLe (a b : TSBucket) : Prop := a.date ≤ b.date

instance : DecidableRel dateLe := fun a b => inferInstanceAs (Decidable (a.date ≤ b.date))

instance : IsTotal TSBucket dateLe := ⟨fun a b => le_total a.date b.date⟩

instance : IsTrans TSBucket dateLe := ⟨fun _ _ _ h1 h2 => le_trans h1 h2⟩

/-- The sort of the bucket values by date of the source. -/
def sortByDate (l : List TSBucket) : List TSBucket :=
  l.insertionSort dateLe

/-- The time-series reducer of the source: group the orders into date buckets
and sort the bucket values by date. -/
def timeSeries (filtered : List OrderRow) : List TSBucket :=
  sortByDate (filtered.foldl insertOrder [])

theorem insertOrder_sum_amount (bs : List TSBucket) (o : OrderRow) :
    ((insertOrder bs o).map (·.amount)).sum = (bs.map (·.amount)).sum + o.amount := by
  induction bs with
  | nil => simp [insertOrder]
  | cons b bs ih =>
    by_cases h : b.date = o.date
    · simp [insertOrder, h]
      ring
    · simp [insertOrder, h, ih]
      ring

theorem insertOrder_sum_count (bs : List TSBucket) (o : OrderRow) :
    ((insertOrder bs o).map (·.count)).sum = (bs.map (·.count)).sum + 1 := by
  induction bs with
  | nil => simp [insertOrder]
  | cons b bs ih =>
    by_cases h : b.date = o.date
    · simp [insertOrder, h]
      omega
    · simp [insertOrder, h, ih]
      omega

theorem foldl_insertOrder_sum_amount (os : List OrderRow) (bs : List TSBucket) :
    ((os.foldl insertOrder bs).map (·.amount)).sum
      = (bs.map (·.amount)).sum + (os.map (·.amount)).sum := by
  induction os generalizing bs with
  | nil => simp
  | cons o os ih =>
    rw [List.foldl_cons, ih, insertOrder_sum_amount]
    simp
    ring

theorem foldl_insertOrder_sum_count (os : List OrderRow) (bs : List TSBucket) :
    ((os.foldl insertOrder bs).map (·.count)).sum
      = (bs.map (·.count)).sum + os.length := by
  induction os generalizing bs with
  | nil => simp
  | cons o os ih =>
    rw [List.foldl_cons, ih, insertOrder_sum_count]
    simp
    omega

theorem insertOrder_keys (bs : List TSBucket) (o : OrderRow) :
    (insertOrder bs o).map (·.date)
      = if o.date ∈ bs.map (·.date) then bs.map (·.date)
        else bs.map (·.date) ++ [o.date] := by
  induction bs with
  | nil => simp [insertOrder]
  | cons b bs ih =>
    by_cases h : b.date = o.date
    · simp [insertOrder, h]
    · have h2 : ¬ o.date = b.date := fun e => h e.symm
      by_cases hm : o.date ∈ bs.map (·.date) <;>
        simp [insertOrder, h, h2, hm, ih]

theorem insertOrder_nodup (bs : List TSBucket) (o : OrderRow)
    (hn : (bs.map (·.date)).Nodup) :
    ((insertOrder bs o).map (·.date)).Nodup := by
  rw [insertOrder_keys]
  split
  · exact hn
  · next hm => simp [List.nodup_append, hn, hm]

theorem insertOrder_mem_cases (bs : List TSBucket) (o : OrderRow)
    (hn : (bs.map (·.date)).Nodup) :
    ∀ b2 ∈ insertOrder bs o,
      (∃ b ∈ bs, b.date = o.date
          ∧ b2 = ⟨b.date, b.amount + o.amount, b.count + 1⟩)
      ∨ (b2 ∈ bs ∧ b2.date ≠ o.date)
      ∨ (o.date ∉ bs.map (·.date) ∧ b2 = ⟨o.date, o.amount, 1⟩) := by
  induction bs with
  | nil =>
    intro b2 hb2
    simp [insertOrder] at hb2
    exact Or.inr (Or.inr ⟨by simp, hb2⟩)
  | cons b bs ih =>
    intro b2 hb2
    by_cases h : b.date = o.date
    · simp only [insertOrder, if_pos h, List.mem_cons] at hb2
      rcases hb2 with rfl | hb2
      · exact Or.inl ⟨b, List.mem_cons_self b bs, h, rfl⟩
      · refine Or.inr (Or.inl ⟨List.mem_cons_of_mem b hb2, ?_⟩)
        intro he
        have hd : b2.date ∈ bs.map (·.date) := List.mem_map_of_mem _ hb2
        rw [he, ← h] at hd
        exact (List.nodup_cons.mp hn).1 hd
    · simp only [insertOrder, if_neg h, List.mem_cons] at hb2
      rcases hb2 with rfl | hb2
      · exact Or.inr (Or.inl ⟨List.mem_cons_self b2 bs, fun e => h e⟩)
      · rcases ih (List.nodup_cons.mp hn).2 b2 hb2 with
          ⟨bb, hbb, hbd, he⟩ | ⟨hmem, hne⟩ | ⟨hnotin, he⟩
        · exact Or.inl ⟨bb, List.mem_cons_of_mem b hbb, hbd, he⟩
        · exact Or.inr (Or.inl ⟨List.mem_cons_of_mem b hmem, hne⟩)
        · refine Or.inr (Or.inr ⟨?_, he⟩)
          simp only [List.map_cons, List.mem_cons]
          rintro (he2 | hin)
          · exact h he2.symm
          · exact hnotin hin

theorem foldl_insertOrder_inv (os : List OrderRow) :
    ((os.foldl insertOrder []).map (·.date)).Nodup
  ∧ (∀ o ∈ os, o.date ∈ (os.foldl insertOrder []).map (·.date))
  ∧ (∀ b ∈ os.foldl insertOrder [],
       b.amount = ((os.filter (fun o2 => o2.date = b.date)).map (·.amount)).sum
     ∧ b.count = (os.filter (fun o2 => o2.date = b.date)).length
     ∧ b.date ∈ os.map (·.date)) := by
  induction os using List.reverseRecOn with
  | nil => simp
  | append_singleton os o ih =>
    obtain ⟨hn, hcomp, hbuck⟩ := ih
    rw [List.foldl_append, List.foldl_cons, List.foldl_nil]
    refine ⟨insertOrder_nodup _ _ hn, ?_, ?_⟩
    · intro o2 ho2
      rw [insertOrder_keys]
      rcases List.mem_append.mp ho2 with hin | hsing
      · split
        · exact hcomp o2 hin
        · exact List.mem_append_left _ (hcomp o2 hin)
      · have he : o2 = o := by simpa using hsing
        subst he
        split
        · next hm => exact hm
        · exact List.mem_append_right _ (by simp)
    · intro b2 hb2
      rcases insertOrder_mem_cases _ o hn b2 hb2 with
        ⟨b, hbB, hbd, rfl⟩ | ⟨hbB, hne⟩ | ⟨hnotin, rfl⟩
      · obtain ⟨ha, hc, hd⟩ := hbuck b hbB
        have hfo : (([o].filter (fun o2 => o2.date = b.date))) = [o] := by
          simp [List.filter_cons, hbd.symm]
        constructor
        · simp only [List.filter_append, List.map_append, List.sum_append, hfo]
          simp [← ha]
        constructor
        · simp only [List.filter_append, List.length_append, hfo]
          simp [← hc]
        · simp only [List.map_append, List.mem_append]
          exact Or.inl hd
      · obtain ⟨ha, hc, hd⟩ := hbuck b2 hbB
        have hfo : (([o].filter (fun o2 => o2.date = b2.date))) = [] := by
          simp [List.filter_cons]
          exact fun e => hne e.symm
        constructor
        · simp only [List.filter_append, List.map_append, List.sum_append, hfo]
          simp [← ha]
        constructor
        · simp only [List.filter_append, List.length_append, hfo]
          simp [← hc]
        · simp only [List.map_append, List.mem_append]
          exact Or.inl hd
      · have hfos : (os.filter (fun o2 => o2.date = o.date)) = [] := by
          rw [List.filter_eq_nil_iff]
          intro o2 ho2 he
          exact hnotin (by simpa [of_decide_eq_true he] using hcomp o2 ho2)
        have hfo : (([o].filter (fun o2 => o2.date = o.date))) = [o] := by
          simp [List.filter_cons]
        refine ⟨?_, ?_, ?_⟩
        · simp [List.filter_append, hfos, hfo]
        · simp [List.filter_append, hfos, hfo]
        · simp

/-- C7: the time-series reducer groups the orders by date string, summing
amount and count per day, and the returned buckets carry strictly increasing
(hence non-decreasing) dates in the lexicographic string order. -/
theorem timeSeries_spec (os : List OrderRow) :
    List.Pairwise (fun a b : TSBucket => a.date < b.date) (timeSeries os)
  ∧ (∀ b ∈ timeSeries os,
       b.amount = ((os.filter (fun o => o.date = b.date)).map (·.amount)).sum
     ∧ b.count = (os.filter (fun o => o.date = b.date)).length)
  ∧ (∀ o ∈ os, o.date ∈ (timeSeries os).map (·.date)) := by
  obtain ⟨hn, hcomp, hbuck⟩ := foldl_insertOrder_inv os
  have hperm : List.Perm (timeSeries os) (os.foldl insertOrder []) :=
    List.perm_insertionSort dateLe (os.foldl insertOrder [])
  have hsorted : List.Pairwise dateLe (timeSeries os) :=
    List.sorted_insertionSort dateLe (os.foldl insertOrder [])
  have hnd : ((timeSeries os).map (·.date)).Nodup :=
    ((hperm.map (·.date)).nodup_iff).mpr hn
  refine ⟨?_, ?_, ?_⟩
  · have hne : List.Pairwise (fun a b : TSBucket => a.date ≠ b.date) (timeSeries os) :=
      List.pairwise_map.mp hnd
    exact (hsorted.and hne).imp (fun h => lt_of_le_of_ne h.1 h.2)
  · intro b hb
    exact ⟨(hbuck b (hperm.subset hb)).1, (hbuck b (hperm.subset hb)).2.1⟩
  · intro o ho
    exact ((hperm.map (·.date)).mem_iff).mpr (hcomp o ho)

/-- Witness for C7: the single bucket of a one-order list aggregates the whole
amount of that order. -/
theorem timeSeries_spec_witness :
    (100 : Rat)
      = (([sampleOrder].filter
            (fun o => o.date = "2025-01-01")).map (·.amount)).sum := by
  have h := (timeSeries_spec [sampleOrder]).2.1
      ⟨ "2025-01-01", (100 : Rat), 1⟩ (by decide)
  simpa using h.1

/-- C10: the time-series buckets partition the orders: the bucket dates are
pairwise distinct, their amounts sum to totalAmount, and their counts sum to
orderCount. -/
theorem timeSeries_partition (os : List OrderRow) :
    ((timeSeries os).map (·.date)).Nodup
  ∧ ((timeSeries os).map (·.amount)).sum = (totals os).totalAmount
  ∧ ((timeSeries os).map (·.count)).sum = (totals os).orderCount := by
  obtain ⟨hn, -, -⟩ := foldl_insertOrder_inv os
  have hperm : List.Perm (timeSeries os) (os.foldl insertOrder []) :=
    List.perm_insertionSort dateLe (os.foldl insertOrder [])
  refine ⟨((hperm.map (·.date)).nodup_iff).mpr hn, ?_, ?_⟩
  · rw [(hperm.map (·.amount)).sum_eq, foldl_insertOrder_sum_amount]
    simp [totals, foldl_add_amount]
  · rw [(hperm.map (·.count)).sum_eq, foldl_insertOrder_sum_count]
    simp [totals]

/-- The channel display labels of the source (const CHANNEL_LABELS). -/
def CHANNEL_LABELS : Channel → String
  | Channel.hepsiburada => "Hepsiburada"
  | Channel.trendyol => "Trendyol"
  | Channel.ticimax => "Ticimax"
  | Channel.site => "Site"
  | Channel.other => "Diğer"

/-- The status display labels of the source (const STATUS_LABELS). -/
def STATUS_LABELS : Status → String
  | Status.pending => "Beklemede"
  | Status.processing => "İşleniyor"
  | Status.shipped => "Kargoda"
  | Status.delivered => "Teslim Edildi"
  | Status.cancelled => "İptal"
  | Status.returned => "İade"

/-- Rendering of an amount with two decimal places (the toFixed call of the
source). -/
def toFixed2 (q : Rat) : String :=
  let n : Int := round (q * 100)
  let sign := if n < 0 then "-" else ""
  let m := n.natAbs
  sign ++ toString (m / 100) ++ "." ++ (if m % 100 < 10 then "0" else "") ++ toString (m % 100)

/-- The fixed CSV header row of the source. -/
def csvHeaders : List String :=
  [ "Tarih", "Kanal", "Durum", "Tutar", "Müşteri", "Kargo Fişi"]

/-- One CSV data row per order, as built by the source. -/
def csvRow (o : OrderRow) : List String :=
  [o.date, CHANNEL_LABELS o.channel, STATUS_LABELS o.status, toFixed2 o.amount,
   o.customer, if isTruthyStr o.cargoSlipPrintedAt then "Evet" else "Hayır"]

/-- The list of semicolon-joined CSV rows of the source: the header row
followed by one row per filtered order. -/
def csvLines (filtered : List OrderRow) : List String :=
  (csvHeaders :: filtered.map csvRow).map (fun r => String.intercalate ";" r)

/-- The full CSV text of the source: the rows joined by newlines. -/
def exportCSVText (filtered : List OrderRow) : String :=
  String.intercalate "\n" (csvLines filtered)

/-- C6: the exported CSV consists of the fixed 6-column header row (date,
channel, status, amount, customer, cargo slip) followed by exactly one
semicolon-joined row of 6 fields per order, so the row count is the order
count plus one. -/
theorem exportCSV_rows (os : List OrderRow) :
    (csvLines os).length = os.length + 1
  ∧ (csvLines os).head? = some (String.intercalate ";" csvHeaders)
  ∧ csvHeaders.length = 6
  ∧ ∀ o ∈ os, (csvRow o).length = 6 := by
  refine ⟨by simp [csvLines], by simp [csvLines], rfl, ?_⟩
  intro o ho
  rfl

/-- Witness for C6 at a concrete one-element order list. -/
theorem exportCSV_rows_witness : (csvRow sampleOrder).length = 6 :=
  (exportCSV_rows [sampleOrder]).2.2.2 sampleOrder (by simp)

/-- The component state touched by the order fetcher: the held order list,
the loading flag and the error banner text. -/
structure DashState where
  orders : List OrderRow
  loading : Bool
  error : Option String
  deriving DecidableEq, Repr

/-- The possible outcomes of one fetch of the reporting endpoint: a transport
error carrying a message, a non-ok HTTP response, or a decoded JSON body with
its success flag, data and optional message. -/
inductive FetchResponse where
  | netError (msg : String)
  | httpError
  | body (success : Bool) (data : List OrderRow) (message : Option String)
  deriving DecidableEq, Repr

/-- The net effect of one run of fetchOrders on the component state. On
success the order list is replaced and the error cleared; a non-ok response
throws a fixed message; an unsuccessful body throws its message, with the
fixed fallback when the message is absent or empty (the JavaScript or-else);
any thrown error only sets the error text. -/
def fetchOrdersStep (s : DashState) (r : FetchResponse) : DashState :=
  match r with
  | FetchResponse.body true data _ =>
      { s with orders := data, error := none, loading := false }
  | FetchResponse.body false _ msg =>
      { s with
        error := some (match msg with
          | some m => if m.isEmpty then "Failed to fetch reports" else m
          | none => "Failed to fetch reports"),
        loading := false }
  | FetchResponse.httpError =>
      { s with error := some "Failed to fetch reports data", loading := false }
  | FetchResponse.netError m =>
      { s with error := some m, loading := false }

/-- A fetch outcome is a failure when it is not a body with a true success
flag. -/
def FetchResponse.isFailure : FetchResponse → Bool
  | FetchResponse.body true _ _ => false
  | _ => true

/-- C1: on every failing fetch outcome the held order list is unchanged (the
state update of setOrders never runs) and the error field carries exactly one
message. -/
theorem fetchOrders_error_path (s : DashState) (r : FetchResponse)
    (h : r.isFailure = true) :
    (fetchOrdersStep s r).orders = s.orders
  ∧ ∃ m, (fetchOrdersStep s r).error = some m := by
  cases r with
  | netError m => exact ⟨rfl, m, rfl⟩
  | httpError => exact ⟨rfl, _, rfl⟩
  | body success data msg =>
    cases success
    · exact ⟨rfl, _, rfl⟩
    · simp [FetchResponse.isFailure] at h

/-- Witness for C1 at a concrete state and a non-ok HTTP response. -/
theorem fetchOrders_error_path_witness :
    (fetchOrdersStep ⟨[sampleOrder], false, none⟩ FetchResponse.httpError).orders
        = [sampleOrder]
  ∧ ∃ m, (fetchOrdersStep ⟨[sampleOrder], false, none⟩ FetchResponse.httpError).error
        = some m :=
  fetchOrders_error_path ⟨[sampleOrder], false, none⟩ FetchResponse.httpError (by decide)

/-- One HTTP response as seen by the k6 script: its status and the values the
script extracts from its JSON body. -/
structure K6Response where
  status : Nat
  token : Option String
  firstItemId : Option Nat
  deriving DecidableEq, Repr

/-- The four steps of the scripted user journey. -/
inductive K6Step where
  | login
  | listProducts
  | addToCart
  | createOrder
  deriving DecidableEq, Repr

/-- The Authorization header built from the captured token; a missing token is
interpolated as the string undefined by the template literal. -/
def bearerOf : Option String → String
  | some t => "Bearer " ++ t
  | none => "Bearer undefined"

/-- One HTTP request issued by the script: its step, the Authorization header
it carries (none for the login request) and, for the add-to-cart request, the
product id placed in the body. -/
structure K6Request where
  step : K6Step
  authHeader : Option String
  productId : Option (Option Nat)
  deriving DecidableEq, Repr

/-- The observable outcome of one script iteration: the issued requests in
order and the recorded checks. -/
structure K6Iteration where
  requests : List K6Request
  checks : List (String × Bool)
  deriving DecidableEq, Repr

/-- One iteration of the default function of the k6 script, as a function of
the four responses: the requests are issued unconditionally in a fixed order,
the token captured from the login response and the first product id captured
from the products response are used by the later steps whatever their value,
and each step records one boolean check without aborting the sequence. -/
def k6Iteration (login products cart order : K6Response) : K6Iteration :=
  let token := login.token
  let auth := bearerOf token
  let productId := products.firstItemId
  { requests :=
      [⟨K6Step.login, none, none⟩,
       ⟨K6Step.listProducts, some auth, none⟩,
       ⟨K6Step.addToCart, some auth, some productId⟩,
       ⟨K6Step.createOrder, some auth, none⟩],
    checks :=
      [( "Login başarılı", login.status == 200),
       ( "Ürünler geldi", products.status == 200),
       ( "Sepete eklendi", cart.status == 200),
       ( "Sipariş başarılı", order.status == 200 || order.status == 201)] }

/-- C8: for every combination of responses the iteration performs the four
requests in the fixed order login, list-products, add-to-cart, create-order,
records exactly four checks, and the later requests carry whatever token and
product id were captured, even when those are absent. -/
theorem k6Iteration_steps (login products cart order : K6Response) :
    (k6Iteration login products cart order).requests.map (·.step)
        = [K6Step.login, K6Step.listProducts, K6Step.addToCart, K6Step.createOrder]
  ∧ (k6Iteration login products cart order).requests.length = 4
  ∧ (k6Iteration login products cart order).checks.length = 4
  ∧ (k6Iteration login products cart order).requests.map (·.authHeader)
        = [none, some (bearerOf login.token), some (bearerOf login.token),
           some (bearerOf login.token)]
  ∧ (k6Iteration login products cart order).requests.map (·.productId)
        = [none, none, some products.firstItemId, none] :=
  ⟨rfl, rfl, rfl, rfl, rfl⟩

/-- Gregorian leap-year rule, as the JavaScript Date object applies it. -/
def isLeap (y : Nat) : Bool :=
  (y % 4 == 0 && y % 100 != 0) || y % 400 == 0

/-- Length in days of a month of the Gregorian calendar. -/
def daysInMonth (y : Nat) (m : Nat) : Nat :=
  if m = 2 then (if isLeap y then 29 else 28)
  else if m = 4 ∨ m = 6 ∨ m = 9 ∨ m = 11 then 30
  else 31

/-- A calendar date at day granularity, the level at which the quick-range
presets of the source manipulate dates. -/
structure CivilDate where
  year : Nat
  month : Nat
  day : Nat
  deriving DecidableEq, Repr

/-- A date is valid when its month and day lie in calendar range. -/
def CivilDate.valid (d : CivilDate) : Prop :=
  1 ≤ d.year ∧ 1 ≤ d.month ∧ d.month ≤ 12 ∧ 1 ≤ d.day ∧ d.day ≤ daysInMonth d.year d.month

instance (d : CivilDate) : Decidable d.valid := by
  unfold CivilDate.valid
  infer_instance

/-- The previous calendar day, with month and year rollover as the JavaScript
setDate arithmetic performs it. -/
def predDate (d : CivilDate) : CivilDate :=
  if 1 < d.day then ⟨d.year, d.month, d.day - 1⟩
  else if 1 < d.month then ⟨d.year, d.month - 1, daysInMonth d.year (d.month - 1)⟩
  else ⟨d.year - 1, 12, 31⟩

/-- Going back a number of calendar days (the setDate call of the source with
a negative offset). -/
def subDays (d : CivilDate) : Nat → CivilDate
  | 0 => d
  | n + 1 => predDate (subDays d n)

/-- Number of leap years among the years 1 to y−1. -/
def leapsBefore (y : Nat) : Nat :=
  (y - 1) / 4 - (y - 1) / 100 + (y - 1) / 400

/-- Days contained in the full years before year y. -/
def daysBeforeYear (y : Nat) : Nat :=
  365 * (y - 1) + leapsBefore y

/-- Days contained in the full months of year y before month m. -/
def daysBeforeMonth (y m : Nat) : Nat :=
  ((List.range (m - 1)).map (fun i => daysInMonth y (i + 1))).sum

/-- Linear day ordinal of a date; consecutive valid dates have consecutive
ordinals. -/
def dayOrd (d : CivilDate) : Nat :=
  daysBeforeYear d.year + daysBeforeMonth d.year d.month + d.day

theorem daysInMonth_pos (y m : Nat) : 1 ≤ daysInMonth y m := by
  unfold daysInMonth
  split
  · split <;> omega
  · split <;> omega

theorem daysBeforeMonth_succ (y m : Nat) (h : 1 ≤ m) :
    daysBeforeMonth y (m + 1) = daysBeforeMonth y m + daysInMonth y m := by
  unfold daysBeforeMonth
  have h1 : m + 1 - 1 = (m - 1) + 1 := by omega
  have h2 : m - 1 + 1 = m := by omega
  rw [h1, List.range_succ, List.map_append, List.sum_append]
  simp [h2]

theorem daysBeforeMonth_year (y : Nat) :
    daysBeforeMonth y 13 = if isLeap y then 366 else 365 := by
  have hr : List.range 12 = [0, 1, 2, 3, 4, 5, 6, 7, 8, 9, 10, 11] := by decide
  unfold daysBeforeMonth
  norm_num [hr, daysInMonth]
  by_cases h : isLeap y <;> simp [h]

theorem leapsBefore_succ (y : Nat) (h : 1 ≤ y) :
    leapsBefore (y + 1) = leapsBefore y + (if isLeap y then 1 else 0) := by
  obtain ⟨z, rfl⟩ : ∃ z, y = z + 1 := ⟨y - 1, by omega⟩
  have e4 : (z + 1) / 4 = z / 4 + if 4 ∣ (z + 1) then 1 else 0 := Nat.succ_div z 4
  have e100 : (z + 1) / 100 = z / 100 + if 100 ∣ (z + 1) then 1 else 0 := Nat.succ_div z 100
  have e400 : (z + 1) / 400 = z / 400 + if 400 ∣ (z + 1) then 1 else 0 := Nat.succ_div z 400
  have hm1 : z / 100 ≤ z / 4 := Nat.div_le_div_left (by norm_num) (by norm_num)
  have d4 : 4 ∣ (z + 1) ↔ (z + 1) % 4 = 0 := by omega
  have d100 : 100 ∣ (z + 1) ↔ (z + 1) % 100 = 0 := by omega
  have d400 : 400 ∣ (z + 1) ↔ (z + 1) % 400 = 0 := by omega
  unfold leapsBefore isLeap
  simp only [Nat.add_sub_cancel]
  rw [e4, e100, e400]
  by_cases h4 : (z + 1) % 4 = 0 <;> by_cases h100 : (z + 1) % 100 = 0 <;>
    by_cases h400 : (z + 1) % 400 = 0 <;>
      simp [d4, d100, d400, h4, h100, h400] <;> omega

theorem daysBeforeYear_succ (y : Nat) (h : 1 ≤ y) :
    daysBeforeYear (y + 1) = daysBeforeYear y + (if isLeap y then 366 else 365) := by
  unfold daysBeforeYear
  rw [leapsBefore_succ y h]
  simp only [Nat.add_sub_cancel]
  by_cases hL : isLeap y <;> simp [hL] <;> omega

theorem predDate_spec (d : CivilDate) (hv : d.valid) (h2 : 2 ≤ dayOrd d) :
    (predDate d).valid ∧ dayOrd (predDate d) + 1 = dayOrd d := by
  obtain ⟨hy, hm1, hm2, hd1, hd2⟩ := hv
  have hof : dayOrd d = daysBeforeYear d.year + daysBeforeMonth d.year d.month + d.day := rfl
  by_cases hd : 1 < d.day
  · have hp : predDate d = ⟨d.year, d.month, d.day - 1⟩ := by
      unfold predDate
      rw [if_pos hd]
    rw [hp]
    refine ⟨⟨hy, hm1, hm2, show 1 ≤ d.day - 1 by omega,
        show d.day - 1 ≤ daysInMonth d.year d.month by omega⟩, ?_⟩
    have hg : dayOrd ⟨d.year, d.month, d.day - 1⟩
        = daysBeforeYear d.year + daysBeforeMonth d.year d.month + (d.day - 1) := rfl
    rw [hg, hof]
    omega
  · have hday : d.day = 1 := by omega
    by_cases hm : 1 < d.month
    · have hp : predDate d = ⟨d.year, d.month - 1, daysInMonth d.year (d.month - 1)⟩ := by
        unfold predDate
        rw [if_neg hd, if_pos hm]
      rw [hp]
      have hpos := daysInMonth_pos d.year (d.month - 1)
      have hsucc := daysBeforeMonth_succ d.year (d.month - 1) (by omega)
      rw [show d.month - 1 + 1 = d.month by omega] at hsucc
      refine ⟨⟨hy, show 1 ≤ d.month - 1 by omega, show d.month - 1 ≤ 12 by omega,
          hpos, le_refl _⟩, ?_⟩
      have hg : dayOrd ⟨d.year, d.month - 1, daysInMonth d.year (d.month - 1)⟩
          = daysBeforeYear d.year + daysBeforeMonth d.year (d.month - 1)
            + daysInMonth d.year (d.month - 1) := rfl
      rw [hg, hof]
      omega
    · have hmon : d.month = 1 := by omega
      have hp : predDate d = ⟨d.year - 1, 12, 31⟩ := by
        unfold predDate
        rw [if_neg hd, if_neg hm]
      rw [hp]
      have hdbm1 : daysBeforeMonth d.year 1 = 0 := by simp [daysBeforeMonth]
      have hy2 : 2 ≤ d.year := by
        by_contra hc
        have hy1 : d.year = 1 := by omega
        have hb : daysBeforeYear 1 = 0 := by decide
        have hdb : daysBeforeMonth 1 1 = 0 := by decide
        rw [hof, hy1, hmon, hb, hdb] at h2
        omega
      have hyy : d.year - 1 + 1 = d.year := by omega
      have hstep := daysBeforeYear_succ (d.year - 1) (by omega)
      rw [hyy] at hstep
      have hyear := daysBeforeMonth_year (d.year - 1)
      have h13 : daysBeforeMonth (d.year - 1) 13
          = daysBeforeMonth (d.year - 1) 12 + daysInMonth (d.year - 1) 12 := by
        have h := daysBeforeMonth_succ (d.year - 1) 12 (by omega)
        norm_num at h
        exact h
      have h31 : daysInMonth (d.year - 1) 12 = 31 := by norm_num [daysInMonth]
      refine ⟨⟨show 1 ≤ d.year - 1 by omega, by norm_num, by norm_num, by norm_num,
          show (31 : Nat) ≤ daysInMonth (d.year - 1) 12 by omega⟩, ?_⟩
      have hg : dayOrd ⟨d.year - 1, 12, 31⟩
          = daysBeforeYear (d.year - 1) + daysBeforeMonth (d.year - 1) 12 + 31 := rfl
      rw [hg, hof, hmon, hday, hdbm1]
      by_cases hL : isLeap (d.year - 1) <;> simp [hL] at hstep hyear <;> omega

theorem subDays_spec (d : CivilDate) (n : Nat) (hv : d.valid) (h : n + 1 ≤ dayOrd d) :
    (subDays d n).valid ∧ dayOrd (subDays d n) + n = dayOrd d := by
  induction n with
  | zero => exact ⟨hv, by simp [subDays]⟩
  | succ k ih =>
    obtain ⟨hval, hord⟩ := ih (by omega)
    have hp := predDate_spec (subDays d k) hval (by omega)
    refine ⟨hp.1, ?_⟩
    have he : subDays d (k + 1) = predDate (subDays d k) := rfl
    rw [he]
    omega

/-- The quick-range presets of the source as a function of today: last 7 days,
last 30 days, current month, and no state change for any other id. -/
def resetQuickRange (today : CivilDate) (id : String) : Option (CivilDate × CivilDate) :=
  if id = "7d" then some (subDays today 6, today)
  else if id = "30d" then some (subDays today 29, today)
  else if id = "thisMonth" then some (⟨today.year, today.month, 1⟩, today)
  else none

/-- C5: for a valid today, the 7d preset yields the inclusive 7-day span
ending today (start is 6 calendar days before today), the 30d preset the
30-day span ending today, and the thisMonth preset the span from the first of
the current month to today. -/
theorem resetQuickRange_spec (today : CivilDate) (hv : today.valid)
    (hy : 2 ≤ today.year) :
    (∃ s, resetQuickRange today "7d" = some (s, today)
        ∧ s.valid ∧ dayOrd s + 6 = dayOrd today)
  ∧ (∃ s, resetQuickRange today "30d" = some (s, today)
        ∧ s.valid ∧ dayOrd s + 29 = dayOrd today)
  ∧ resetQuickRange today "thisMonth"
        = some (⟨today.year, today.month, 1⟩, today) := by
  have hord : 366 ≤ dayOrd today := by
    obtain ⟨h1, h2, h3, h4, h5⟩ := hv
    unfold dayOrd daysBeforeYear
    have h365 : 365 ≤ 365 * (today.year - 1) := by omega
    omega
  obtain ⟨hval7, hord7⟩ := subDays_spec today 6 hv (by omega)
  obtain ⟨hval30, hord30⟩ := subDays_spec today 29 hv (by omega)
  refine ⟨⟨subDays today 6, by simp [resetQuickRange], hval7, hord7⟩,
          ⟨subDays today 29, by simp [resetQuickRange], hval30, hord30⟩,
          by simp [resetQuickRange]⟩

/-- Witness for C5 at a concrete valid date. -/
theorem resetQuickRange_spec_witness :
    resetQuickRange ⟨2025, 3, 15⟩ "thisMonth"
      = some (⟨2025, 3, 1⟩, ⟨2025, 3, 15⟩) :=
  (resetQuickRange_spec ⟨2025, 3, 15⟩ (by decide) (by norm_num)).2.2
